import Mathlib

/-!
Verification development for the `keyed-batched-items-accumulator` package
(`KeyedBatchedAccumulator` class). The public surface is declared in
`dist/keyed-batched-items-accumulator.d.ts`; the method bodies themselves are
not shipped in the sources available here, so the operational definitions
below are modelled from the specification document (sections 3, 4 and 7),
which describes the data model (`PerKeyAccumulator`, the key-to-accumulator
mapping), the push/extract algorithms and the boundary validation.
-/

set_option autoImplicit false

namespace KeyedBatching

/-- Modelled from the spec: a JavaScript runtime value arriving at the public
boundary (`batchSize` of the constructor, `key` of `push`). Numbers are
modelled as rationals, which covers the integral, fractional and negative
numeric inputs the validation must reject; the remaining constructors cover
the non-numeric inputs named by the spec (string, boolean, null, undefined,
plain object). -/
inductive JSValue where
  | num (q : Rat)
  | str (s : String)
  | boolean (b : Bool)
  | jsNull
  | jsUndefined
  | object
  deriving DecidableEq

/-- Modelled from the spec: the single error kind of the component,
`InvalidArgument`, raised by construction and by `push` validation. -/
inductive ErrorKind where
  | invalidArgument
  deriving DecidableEq

/-- Modelled from the spec (section 4.1, `PerKeyAccumulator.push`): the batch
sequence after routing one item into it. If no batch exists, or the last
batch already holds `batchSize` items, a new batch is opened; otherwise the
item is appended to the last (open) batch. -/
def perPushBatches {α : Type} (batchSize : Nat) : List (List α) → α → List (List α)
  | [], item => [[item]]
  | [last], item =>
      if last.length = batchSize then [last, [item]] else [last ++ [item]]
  | batch :: nextBatch :: rest, item =>
      batch :: perPushBatches batchSize (nextBatch :: rest) item

/-- Modelled from the spec (section 3): the batching sub-structure owned by
one key: its ordered batches plus the running item count for that key. -/
structure PerKeyAccumulator (α : Type) where
  batches : List (List α)
  itemCount : Nat
  deriving DecidableEq

/-- Modelled from the spec: a freshly created per-key accumulator (created
lazily on the first push for a key). -/
def PerKeyAccumulator.empty {α : Type} : PerKeyAccumulator α :=
  { batches := [], itemCount := 0 }

/-- Modelled from the spec (section 4.1): `push(item)` routes the item into
the batch sequence and increments the key's item count. -/
def PerKeyAccumulator.push {α : Type} (batchSize : Nat) (p : PerKeyAccumulator α)
    (item : α) : PerKeyAccumulator α :=
  { batches := perPushBatches batchSize p.batches item, itemCount := p.itemCount + 1 }

/-- First-match lookup in an insertion-ordered association list; this models
`Map.get` of the `_keyToAccumulator` map (keys in such a map are unique). -/
def getEntry {β : Type} (l : List (String × β)) (k : String) : Option β :=
  match l with
  | [] => none
  | e :: rest => if e.1 = k then some e.2 else getEntry rest k

/-- Modelled from the spec (section 4.2, `push`): look up the entry for `k`
and update it in place, or lazily create it from the default `d` — this is
`Map.get` followed by `Map.set`, which updates an existing key in place and
appends a new key in insertion order. -/
def upsert {β : Type} (l : List (String × β)) (k : String) (d : β) (f : β → β) :
    List (String × β) :=
  match l with
  | [] => [(k, f d)]
  | e :: rest => if e.1 = k then (e.1, f e.2) :: rest else e :: upsert rest k d f

/-- Modelled from the spec (sections 3 and 4.2): the `KeyedBatchedAccumulator`
state — the fixed batch size, the insertion-ordered mapping from key to its
`PerKeyAccumulator`, and the incrementally maintained global item counter. -/
structure KeyedBatchedAccumulator (α : Type) where
  batchSize : Nat
  keyToAccumulator : List (String × PerKeyAccumulator α)
  totalCount : Nat
  deriving DecidableEq

/-- A fresh accumulator with validated batch size `b`. -/
def emptyAcc (α : Type) (b : Nat) : KeyedBatchedAccumulator α :=
  { batchSize := b, keyToAccumulator := [], totalCount := 0 }

/-- Modelled from the spec (section 7, construction validation): the
constructor accepts `batchSize` iff it is a numeric value that is a positive
integer (natural number ≥ 1); every other input fails with
`InvalidArgument` and no instance is created. -/
def construct (α : Type) (batchSizeInput : JSValue) :
    Except ErrorKind (KeyedBatchedAccumulator α) :=
  match batchSizeInput with
  | JSValue.num q =>
      if q.den = 1 ∧ 1 ≤ q then Except.ok (emptyAcc α q.num.toNat)
      else Except.error ErrorKind.invalidArgument
  | _ => Except.error ErrorKind.invalidArgument

/-- Modelled from the spec (section 4.2, `push` after validation): look up or
lazily create the `PerKeyAccumulator` for `key`, delegate to its `push`, and
increment the global item count. -/
def KeyedBatchedAccumulator.push {α : Type} (A : KeyedBatchedAccumulator α)
    (item : α) (key : String) : KeyedBatchedAccumulator α :=
  { A with
    keyToAccumulator :=
      upsert A.keyToAccumulator key PerKeyAccumulator.empty
        (fun p => p.push A.batchSize item)
    totalCount := A.totalCount + 1 }

/-- Modelled from the spec (section 7, push validation): `key` must be a
non-empty string; otherwise the push fails with `InvalidArgument` before any
state mutation, so the returned state is the untouched input state. The
first component is the call's outcome, the second the accumulator state
after the call. -/
def KeyedBatchedAccumulator.pushChecked {α : Type} (A : KeyedBatchedAccumulator α)
    (item : α) (key : JSValue) :
    Except ErrorKind Unit × KeyedBatchedAccumulator α :=
  match key with
  | JSValue.str s =>
      if s = "" then (Except.error ErrorKind.invalidArgument, A)
      else (Except.ok (), A.push item s)
  | _ => (Except.error ErrorKind.invalidArgument, A)

/-- Number of currently active keys (`activeKeysCount` getter). -/
def KeyedBatchedAccumulator.activeKeysCount {α : Type}
    (A : KeyedBatchedAccumulator α) : Nat :=
  A.keyToAccumulator.length

/-- Snapshot of the currently active keys (`activeKeys` getter). -/
def KeyedBatchedAccumulator.activeKeys {α : Type}
    (A : KeyedBatchedAccumulator α) : List String :=
  A.keyToAccumulator.map Prod.fst

/-- Total number of accumulated items across all keys
(`totalAccumulatedItemsCount` getter, maintained incrementally). -/
def KeyedBatchedAccumulator.totalAccumulatedItemsCount {α : Type}
    (A : KeyedBatchedAccumulator α) : Nat :=
  A.totalCount

/-- Whether the accumulator holds no items (`isEmpty` getter): true iff there
are no active keys. -/
def KeyedBatchedAccumulator.isEmpty {α : Type}
    (A : KeyedBatchedAccumulator α) : Bool :=
  A.keyToAccumulator.isEmpty

/-- Item count for one key (`getAccumulatedItemsCount`): the key's current
count, or 0 when the key is not active; never fails. -/
def KeyedBatchedAccumulator.getAccumulatedItemsCount {α : Type}
    (A : KeyedBatchedAccumulator α) (key : String) : Nat :=
  ((getEntry A.keyToAccumulator key).map PerKeyAccumulator.itemCount).getD 0

/-- Whether the key currently has at least one accumulated item
(`isActiveKey`): membership in the mapping. -/
def KeyedBatchedAccumulator.isActiveKey {α : Type}
    (A : KeyedBatchedAccumulator α) (key : String) : Bool :=
  (getEntry A.keyToAccumulator key).isSome

/-- Modelled from the spec (section 4.2, `extractAll`): harvest every key's
batches into a fresh map (first component) and reset the accumulator — the
mapping is cleared and the global counter reset to 0 (second component). -/
def KeyedBatchedAccumulator.extractAccumulatedBatches {α : Type}
    (A : KeyedBatchedAccumulator α) :
    List (String × List (List α)) × KeyedBatchedAccumulator α :=
  (A.keyToAccumulator.map (fun e => (e.1, e.2.batches)),
   emptyAcc α A.batchSize)

/-- Run a sequence of successful pushes, in order; each element is an
(item, key) pair. -/
def pushAll {α : Type} (A : KeyedBatchedAccumulator α)
    (ops : List (α × String)) : KeyedBatchedAccumulator α :=
  ops.foldl (fun acc op => acc.push op.1 op.2) A

/-- The subsequence of items pushed under key `k`, in push order. -/
def keyItems {α : Type} (k : String) (ops : List (α × String)) : List α :=
  (ops.filter (fun op => op.2 == k)).map Prod.fst

/-- Batches currently stored for key `k` (empty when the key is inactive). -/
def batchesFor {α : Type} (A : KeyedBatchedAccumulator α) (k : String) :
    List (List α) :=
  ((getEntry A.keyToAccumulator k).map PerKeyAccumulator.batches).getD []

/-- Batches the extraction returns for key `k` (empty when the key is absent
from the returned map). -/
def extractedFor {α : Type} (A : KeyedBatchedAccumulator α) (k : String) :
    List (List α) :=
  (getEntry A.extractAccumulatedBatches.1 k).getD []

/-- The fixed-size batch shape: every batch except the last holds exactly `b`
items, and the last batch holds between 1 and `b` items. -/
def chunked {α : Type} (b : Nat) : List (List α) → Bool
  | [] => true
  | [last] => decide (1 ≤ last.length) && decide (last.length ≤ b)
  | batch :: nextBatch :: rest =>
      decide (batch.length = b) && chunked b (nextBatch :: rest)

/-- The accounting invariant every reachable accumulator satisfies: the
incrementally maintained global counter equals the sum of all stored per-key
counts, and the mapping's keys are pairwise distinct. -/
def GoodState {α : Type} (A : KeyedBatchedAccumulator α) : Prop :=
  A.totalCount = (A.keyToAccumulator.map (fun e => e.2.itemCount)).sum
  ∧ (A.keyToAccumulator.map Prod.fst).Nodup

/-- Opaque item values for the documented dry-run scenario: the four items
pushed as A, B, C, D. -/
inductive Ev where
  | A
  | B
  | C
  | D
  deriving DecidableEq

/-- Replay a single key's pushes starting from a per-key accumulator. -/
def pushListPer {α : Type} (b : Nat) (p : PerKeyAccumulator α) (l : List α) :
    PerKeyAccumulator α :=
  l.foldl (fun q i => q.push b i) p

/-- Replay a single key's pushes starting from an optional map entry,
creating the per-key accumulator lazily on the first item. -/
def replayEntry {α : Type} (b : Nat) (start : Option (PerKeyAccumulator α))
    (l : List α) : Option (PerKeyAccumulator α) :=
  l.foldl (fun acc i => some ((acc.getD PerKeyAccumulator.empty).push b i)) start

theorem flatten_perPushBatches {α : Type} (b : Nat) (bs : List (List α)) (x : α) :
    (perPushBatches b bs x).flatten = bs.flatten ++ [x] := by
  induction bs with
  | nil => simp [perPushBatches]
  | cons batch rest ih =>
    cases rest with
    | nil => by_cases h : batch.length = b <;> simp [perPushBatches, h]
    | cons nb rest2 => simp [perPushBatches, ih]

theorem flatten_foldl_perPushBatches {α : Type} (b : Nat) (bs : List (List α))
    (l : List α) : (l.foldl (perPushBatches b) bs).flatten = bs.flatten ++ l := by
  induction l generalizing bs with
  | nil => simp
  | cons i l ih => simp [List.foldl_cons, ih, flatten_perPushBatches]

theorem getEntry_upsert_self {β : Type} (l : List (String × β)) (k : String)
    (d : β) (f : β → β) :
    getEntry (upsert l k d f) k = some (f ((getEntry l k).getD d)) := by
  induction l with
  | nil => simp [upsert, getEntry]
  | cons e rest ih => by_cases h : e.1 = k <;> simp [upsert, getEntry, h, ih]

theorem getEntry_upsert_ne {β : Type} (l : List (String × β)) (k k2 : String)
    (d : β) (f : β → β) (h : k2 ≠ k) :
    getEntry (upsert l k d f) k2 = getEntry l k2 := by
  have hk : ¬k = k2 := fun he => h he.symm
  induction l with
  | nil => simp [upsert, getEntry, hk]
  | cons e rest ih =>
    by_cases he : e.1 = k
    · have h2 : ¬e.1 = k2 := fun hx => hk (he ▸ hx)
      simp [upsert, getEntry, he, h2, hk]
    · by_cases h2 : e.1 = k2 <;> simp [upsert, getEntry, he, h2, h, hk, ih]

theorem keyItems_nil {α : Type} (k : String) : keyItems (α := α) k [] = [] := rfl

theorem keyItems_cons {α : Type} (k : String) (op : α × String)
    (rest : List (α × String)) :
    keyItems k (op :: rest)
      = if op.2 = k then op.1 :: keyItems k rest else keyItems k rest := by
  by_cases h : op.2 = k <;> simp [keyItems, h]

theorem getEntry_pushAll {α : Type} (A : KeyedBatchedAccumulator α)
    (ops : List (α × String)) (k : String) :
    getEntry (pushAll A ops).keyToAccumulator k
      = replayEntry A.batchSize (getEntry A.keyToAccumulator k) (keyItems k ops) := by
  induction ops generalizing A with
  | nil => rfl
  | cons op rest ih =>
    show getEntry (pushAll (A.push op.1 op.2) rest).keyToAccumulator k = _
    rw [ih]
    by_cases h : op.2 = k
    · subst h
      rw [keyItems_cons]
      simp only [if_pos rfl]
      show replayEntry A.batchSize
          (getEntry (upsert A.keyToAccumulator op.2 PerKeyAccumulator.empty
            (fun p => p.push A.batchSize op.1)) op.2) (keyItems op.2 rest) = _
      rw [getEntry_upsert_self]
      rfl
    · rw [keyItems_cons, if_neg h]
      show replayEntry A.batchSize
          (getEntry (upsert A.keyToAccumulator op.2 PerKeyAccumulator.empty
            (fun p => p.push A.batchSize op.1)) k) (keyItems k rest) = _
      rw [getEntry_upsert_ne _ _ _ _ _ (fun he => h he.symm)]

theorem replayEntry_some {α : Type} (b : Nat) (p : PerKeyAccumulator α)
    (l : List α) : replayEntry b (some p) l = some (pushListPer b p l) := by
  induction l generalizing p with
  | nil => rfl
  | cons i l ih => exact ih (p.push b i)

theorem batches_pushListPer {α : Type} (b : Nat) (p : PerKeyAccumulator α)
    (l : List α) :
    (pushListPer b p l).batches = l.foldl (perPushBatches b) p.batches := by
  induction l generalizing p with
  | nil => rfl
  | cons i l ih => exact ih (p.push b i)

theorem itemCount_pushListPer {α : Type} (b : Nat) (p : PerKeyAccumulator α)
    (l : List α) : (pushListPer b p l).itemCount = p.itemCount + l.length := by
  induction l generalizing p with
  | nil => rfl
  | cons i l ih =>
    show (pushListPer b (p.push b i) l).itemCount = _
    rw [ih]
    show p.itemCount + 1 + l.length = p.itemCount + (l.length + 1)
    omega

theorem getEntry_pushAll_empty {α : Type} (b : Nat) (ops : List (α × String))
    (k : String) :
    getEntry (pushAll (emptyAcc α b) ops).keyToAccumulator k
      = replayEntry b none (keyItems k ops) :=
  getEntry_pushAll (emptyAcc α b) ops k

theorem batchesFor_pushAll_empty {α : Type} (b : Nat) (ops : List (α × String))
    (k : String) :
    batchesFor (pushAll (emptyAcc α b) ops) k
      = (keyItems k ops).foldl (perPushBatches b) [] := by
  rw [batchesFor, getEntry_pushAll_empty]
  cases h : keyItems k ops with
  | nil => rfl
  | cons i l =>
    show ((replayEntry b (some (PerKeyAccumulator.empty.push b i)) l).map
      PerKeyAccumulator.batches).getD [] = _
    rw [replayEntry_some]
    show (pushListPer b (PerKeyAccumulator.empty.push b i) l).batches = _
    rw [batches_pushListPer]
    rfl

theorem count_pushAll_empty {α : Type} (b : Nat) (ops : List (α × String))
    (k : String) :
    (pushAll (emptyAcc α b) ops).getAccumulatedItemsCount k
      = (keyItems k ops).length := by
  rw [KeyedBatchedAccumulator.getAccumulatedItemsCount, getEntry_pushAll_empty]
  cases h : keyItems k ops with
  | nil => rfl
  | cons i l =>
    show ((replayEntry b (some (PerKeyAccumulator.empty.push b i)) l).map
      PerKeyAccumulator.itemCount).getD 0 = _
    rw [replayEntry_some]
    show (pushListPer b (PerKeyAccumulator.empty.push b i) l).itemCount = _
    rw [itemCount_pushListPer]
    show 0 + 1 + l.length = l.length + 1
    omega

theorem isActiveKey_pushAll_empty {α : Type} (b : Nat) (ops : List (α × String))
    (k : String) :
    (pushAll (emptyAcc α b) ops).isActiveKey k = !(keyItems k ops).isEmpty := by
  rw [KeyedBatchedAccumulator.isActiveKey, getEntry_pushAll_empty]
  cases h : keyItems k ops with
  | nil => rfl
  | cons i l =>
    show (replayEntry b (some (PerKeyAccumulator.empty.push b i)) l).isSome = _
    rw [replayEntry_some]
    rfl

theorem getEntry_mapBatches {α : Type} (l : List (String × PerKeyAccumulator α))
    (k : String) :
    getEntry (l.map (fun e => (e.1, e.2.batches))) k
      = (getEntry l k).map PerKeyAccumulator.batches := by
  induction l with
  | nil => rfl
  | cons e rest ih => by_cases h : e.1 = k <;> simp [getEntry, h, ih]

theorem extractedFor_eq_batchesFor {α : Type} (A : KeyedBatchedAccumulator α)
    (k : String) : extractedFor A k = batchesFor A k := by
  rw [extractedFor, batchesFor, KeyedBatchedAccumulator.extractAccumulatedBatches,
    getEntry_mapBatches]

theorem chunked_cons {α : Type} (b : Nat) (batch : List α) (l : List (List α))
    (h : l ≠ []) :
    chunked b (batch :: l) = (decide (batch.length = b) && chunked b l) := by
  cases l with
  | nil => exact absurd rfl h
  | cons nb rest => rfl

theorem perPushBatches_ne_nil {α : Type} (b : Nat) (bs : List (List α)) (x : α) :
    perPushBatches b bs x ≠ [] := by
  cases bs with
  | nil => simp [perPushBatches]
  | cons batch rest =>
    cases rest with
    | nil => by_cases h : batch.length = b <;> simp [perPushBatches, h]
    | cons nb r2 => simp [perPushBatches]

theorem chunked_perPushBatches {α : Type} (b : Nat) (hb : 0 < b)
    (bs : List (List α)) (x : α) (h : chunked b bs = true) :
    chunked b (perPushBatches b bs x) = true := by
  induction bs with
  | nil =>
    simp [perPushBatches, chunked]
    omega
  | cons batch rest ih =>
    cases rest with
    | nil =>
      by_cases hfull : batch.length = b
      · simp [perPushBatches, hfull, chunked]
        omega
      · simp [chunked] at h
        simp [perPushBatches, hfull, chunked]
        omega
    | cons nb r2 =>
      have hstep : perPushBatches b (batch :: nb :: r2) x
          = batch :: perPushBatches b (nb :: r2) x := rfl
      rw [hstep, chunked_cons _ _ _ (perPushBatches_ne_nil b _ x)]
      rw [chunked_cons _ _ _ (by simp)] at h
      simp only [Bool.and_eq_true, decide_eq_true_eq] at h ⊢
      exact ⟨h.1, ih h.2⟩

theorem chunked_dropLast {α : Type} (b : Nat) (bs : List (List α))
    (h : chunked b bs = true) : ∀ batch ∈ bs.dropLast, batch.length = b := by
  induction bs with
  | nil => simp
  | cons batch rest ih =>
    cases rest with
    | nil => simp
    | cons nb r2 =>
      rw [chunked_cons _ _ _ (by simp)] at h
      simp only [Bool.and_eq_true, decide_eq_true_eq] at h
      intro x hx
      rw [List.dropLast_cons_of_ne_nil (by simp)] at hx
      rcases List.mem_cons.mp hx with hx | hx
      · exact hx ▸ h.1
      · exact ih h.2 x hx

theorem chunked_count {α : Type} (b : Nat) (bs : List (List α))
    (h : chunked b bs = true) (hne : bs ≠ []) :
    bs.flatten.length = b * (bs.length - 1) + (bs.getLast?.getD []).length
    ∧ 1 ≤ (bs.getLast?.getD []).length ∧ (bs.getLast?.getD []).length ≤ b := by
  induction bs with
  | nil => exact absurd rfl hne
  | cons batch rest ih =>
    cases rest with
    | nil =>
      simp [chunked] at h
      simp [List.getLast?]
      omega
    | cons nb r2 =>
      rw [chunked_cons _ _ _ (by simp)] at h
      simp only [Bool.and_eq_true, decide_eq_true_eq] at h
      have hih := ih h.2 (by simp)
      rw [List.getLast?_cons_cons]
      simp only [List.flatten_cons, List.length_append, List.length_cons] at hih ⊢
      simp only [Nat.add_sub_cancel] at hih ⊢
      rw [Nat.mul_succ]
      omega

theorem batch_arith (b m r : Nat) (hb : 0 < b) (hm : 1 ≤ m) (hr1 : 1 ≤ r)
    (hrb : r ≤ b) :
    (b * (m - 1) + r + b - 1) / b = m
    ∧ b * (m - 1) + r - b * ((b * (m - 1) + r - 1) / b) = r := by
  have hfloor : (b * (m - 1) + r - 1) / b = m - 1 := by
    have e : b * (m - 1) + r - 1 = b * (m - 1) + (r - 1) := by omega
    rw [e, Nat.mul_add_div hb, Nat.div_eq_of_lt (by omega)]
    omega
  have hbm : b * m = b * (m - 1) + b := by
    nth_rewrite 1 [show m = (m - 1) + 1 by omega]
    rw [Nat.mul_succ]
  have hceil : (b * (m - 1) + r + b - 1) / b = m := by
    have e : b * (m - 1) + r + b - 1 = b * m + (r - 1) := by omega
    rw [e, Nat.mul_add_div hb, Nat.div_eq_of_lt (by omega)]
    omega
  exact ⟨hceil, by rw [hfloor]; omega⟩

theorem chunked_foldl {α : Type} (b : Nat) (hb : 0 < b) (bs : List (List α))
    (l : List α) (h : chunked b bs = true) :
    chunked b (l.foldl (perPushBatches b) bs) = true := by
  induction l generalizing bs with
  | nil => exact h
  | cons i l ih => exact ih (perPushBatches b bs i) (chunked_perPushBatches b hb bs i h)

theorem getEntry_eq_none_iff {β : Type} (l : List (String × β)) (k : String) :
    getEntry l k = none ↔ k ∉ l.map Prod.fst := by
  induction l with
  | nil => simp [getEntry]
  | cons e rest ih =>
    by_cases h : e.1 = k
    · simp [getEntry, h]
    · simp [getEntry, h, ih, Ne.symm h]

theorem upsert_keys {β : Type} (l : List (String × β)) (k : String) (d : β)
    (f : β → β) :
    (upsert l k d f).map Prod.fst
      = if (getEntry l k).isSome then l.map Prod.fst
        else l.map Prod.fst ++ [k] := by
  induction l with
  | nil => simp [upsert, getEntry]
  | cons e rest ih =>
    by_cases h : e.1 = k
    · simp [upsert, getEntry, h]
    · by_cases h2 : (getEntry rest k).isSome <;> simp [upsert, getEntry, h, h2, ih]

theorem nodup_upsert {β : Type} (l : List (String × β)) (k : String) (d : β)
    (f : β → β) (hd : (l.map Prod.fst).Nodup) :
    ((upsert l k d f).map Prod.fst).Nodup := by
  rw [upsert_keys]
  by_cases h : (getEntry l k).isSome
  · simp [h, hd]
  · have hk : k ∉ l.map Prod.fst :=
      (getEntry_eq_none_iff l k).mp (Option.not_isSome_iff_eq_none.mp h)
    simp [h, List.nodup_append, hd, hk]

theorem sumCounts_upsert {α : Type} (l : List (String × PerKeyAccumulator α))
    (k : String) (b : Nat) (i : α) :
    ((upsert l k PerKeyAccumulator.empty (fun p => p.push b i)).map
        (fun e => e.2.itemCount)).sum
      = (l.map (fun e => e.2.itemCount)).sum + 1 := by
  induction l with
  | nil => simp [upsert, PerKeyAccumulator.push, PerKeyAccumulator.empty]
  | cons e rest ih =>
    by_cases h : e.1 = k
    · simp only [upsert, if_pos h, List.map_cons, List.sum_cons,
        PerKeyAccumulator.push]
      omega
    · simp only [upsert, if_neg h, List.map_cons, List.sum_cons]
      rw [ih]
      omega

theorem goodState_empty {α : Type} (b : Nat) : GoodState (emptyAcc α b) :=
  ⟨rfl, List.nodup_nil⟩

theorem goodState_push {α : Type} (A : KeyedBatchedAccumulator α) (i : α)
    (k : String) (h : GoodState A) : GoodState (A.push i k) := by
  constructor
  · show A.totalCount + 1 = _
    rw [show (A.push i k).keyToAccumulator
        = upsert A.keyToAccumulator k PerKeyAccumulator.empty
            (fun p => p.push A.batchSize i) from rfl]
    rw [sumCounts_upsert, h.1]
  · exact nodup_upsert _ _ _ _ h.2

theorem goodState_pushAll {α : Type} (A : KeyedBatchedAccumulator α)
    (ops : List (α × String)) (h : GoodState A) : GoodState (pushAll A ops) := by
  induction ops generalizing A with
  | nil => exact h
  | cons op rest ih => exact ih (A.push op.1 op.2) (goodState_push A op.1 op.2 h)

theorem sum_over_keys {α : Type} (l : List (String × PerKeyAccumulator α))
    (hd : (l.map Prod.fst).Nodup) :
    ((l.map Prod.fst).map
        (fun k => ((getEntry l k).map PerKeyAccumulator.itemCount).getD 0)).sum
      = (l.map (fun e => e.2.itemCount)).sum := by
  induction l with
  | nil => rfl
  | cons e rest ih =>
    have hne : e.1 ∉ rest.map Prod.fst := (List.nodup_cons.mp hd).1
    have hd2 : (rest.map Prod.fst).Nodup := (List.nodup_cons.mp hd).2
    have hcongr : ∀ k ∈ rest.map Prod.fst,
        ((getEntry (e :: rest) k).map PerKeyAccumulator.itemCount).getD 0
          = ((getEntry rest k).map PerKeyAccumulator.itemCount).getD 0 := by
      intro k hk
      have hne2 : ¬e.1 = k := fun hh => hne (hh ▸ hk)
      simp [getEntry, hne2]
    simp only [List.map_cons, List.sum_cons]
    rw [List.map_congr_left hcongr, ih hd2]
    simp [getEntry]

theorem count_push_self {α : Type} (A : KeyedBatchedAccumulator α) (i : α)
    (k : String) :
    (A.push i k).getAccumulatedItemsCount k = A.getAccumulatedItemsCount k + 1 := by
  show ((getEntry (upsert A.keyToAccumulator k PerKeyAccumulator.empty
      (fun p => p.push A.batchSize i)) k).map PerKeyAccumulator.itemCount).getD 0 = _
  rw [getEntry_upsert_self]
  cases hE : getEntry A.keyToAccumulator k <;>
    simp [KeyedBatchedAccumulator.getAccumulatedItemsCount, hE,
      PerKeyAccumulator.push, PerKeyAccumulator.empty]

/-- C1: for every key and every sequence of successful pushes, concatenating
the batches that `extractAccumulatedBatches` returns for that key, in batch
order, yields exactly the sequence of items pushed under that key, in push
order, each extracted item being the pushed item value. -/
theorem order_preservation {α : Type} (b : Nat) (hb : 0 < b)
    (ops : List (α × String)) (k : String) :
    (extractedFor (pushAll (emptyAcc α b) ops) k).flatten = keyItems k ops := by
  rw [extractedFor_eq_batchesFor, batchesFor_pushAll_empty,
    flatten_foldl_perPushBatches]
  simp

/-- Witness for C1: the order-preservation theorem applied at batch size 2
and a concrete three-push sequence over two keys. -/
theorem order_preservation_witness :
    (0:Nat) < 2
    ∧ (extractedFor (pushAll (emptyAcc Nat 2) [(5, "x"), (6, "y"), (7, "x")])
        "x").flatten = keyItems "x" [(5, "x"), (6, "y"), (7, "x")] :=
  ⟨by decide, order_preservation 2 (by decide) [(5, "x"), (6, "y"), (7, "x")] "x"⟩

/-- C2: for every key under which `n ≥ 1` items were pushed into an
accumulator with batch size `b`, extraction returns exactly `⌈n/b⌉` batches
for that key, every batch except the last has length exactly `b`, and the
last batch has length `n - b * ⌊(n-1)/b⌋`. -/
theorem fixed_size_invariant {α : Type} (b : Nat) (hb : 0 < b)
    (ops : List (α × String)) (k : String)
    (hn : 0 < (keyItems k ops).length) :
    (extractedFor (pushAll (emptyAcc α b) ops) k).length
        = ((keyItems k ops).length + b - 1) / b
    ∧ (∀ batch ∈ (extractedFor (pushAll (emptyAcc α b) ops) k).dropLast,
        batch.length = b)
    ∧ ((extractedFor (pushAll (emptyAcc α b) ops) k).getLast?.getD []).length
        = (keyItems k ops).length - b * (((keyItems k ops).length - 1) / b) := by
  rw [extractedFor_eq_batchesFor, batchesFor_pushAll_empty]
  set l := keyItems k ops with hl
  set bs := l.foldl (perPushBatches b) [] with hbsdef
  have hflat : bs.flatten = l := by
    rw [hbsdef, flatten_foldl_perPushBatches]
    simp
  have hchunk : chunked b bs = true := chunked_foldl b hb [] l rfl
  have hne2 : bs ≠ [] := by
    intro h0
    have he : l = [] := by rw [← hflat, h0]; rfl
    rw [he] at hn
    exact absurd hn (by simp)
  have hcount := chunked_count b bs hchunk hne2
  have hm : 1 ≤ bs.length := by
    cases hb2 : bs with
    | nil => exact absurd hb2 hne2
    | cons x xs => simp
  have harith := batch_arith b bs.length (bs.getLast?.getD []).length hb hm
    hcount.2.1 hcount.2.2
  have hn_eq : l.length = b * (bs.length - 1) + (bs.getLast?.getD []).length := by
    rw [← hflat]
    exact hcount.1
  refine ⟨?_, chunked_dropLast b bs hchunk, ?_⟩
  · rw [hn_eq]
    exact harith.1.symm
  · rw [hn_eq]
    exact harith.2.symm

/-- Witness for C2: the fixed-size theorem applied at batch size 2 with three
items pushed under key x, giving two batches of lengths 2 and 1. -/
theorem fixed_size_invariant_witness :
    ((0:Nat) < 2 ∧ 0 < (keyItems "x" [((1:Nat), "x"), (2, "x"), (3, "x")]).length)
    ∧ ((extractedFor (pushAll (emptyAcc Nat 2) [(1, "x"), (2, "x"), (3, "x")])
          "x").length
        = ((keyItems "x" [((1:Nat), "x"), (2, "x"), (3, "x")]).length + 2 - 1) / 2
      ∧ (∀ batch ∈ (extractedFor
            (pushAll (emptyAcc Nat 2) [(1, "x"), (2, "x"), (3, "x")])
            "x").dropLast, batch.length = 2)
      ∧ ((extractedFor (pushAll (emptyAcc Nat 2) [(1, "x"), (2, "x"), (3, "x")])
            "x").getLast?.getD []).length
          = (keyItems "x" [((1:Nat), "x"), (2, "x"), (3, "x")]).length
            - 2 * (((keyItems "x" [((1:Nat), "x"), (2, "x"), (3, "x")]).length - 1) / 2)) :=
  ⟨⟨by decide, by decide⟩,
    fixed_size_invariant 2 (by decide) [(1, "x"), (2, "x"), (3, "x")] "x" (by decide)⟩

/-- C3: immediately after any call to `extractAccumulatedBatches`, the
accumulator reports `isEmpty = true`, `activeKeysCount = 0`,
`totalAccumulatedItemsCount = 0`, an empty `activeKeys` list, and for every
key (in particular every previously active one) `isActiveKey` is false and
`getAccumulatedItemsCount` is 0. -/
theorem reset_completeness {α : Type} (A : KeyedBatchedAccumulator α)
    (k : String) :
    A.extractAccumulatedBatches.2.isEmpty = true
    ∧ A.extractAccumulatedBatches.2.activeKeysCount = 0
    ∧ A.extractAccumulatedBatches.2.totalAccumulatedItemsCount = 0
    ∧ A.extractAccumulatedBatches.2.activeKeys = []
    ∧ A.extractAccumulatedBatches.2.isActiveKey k = false
    ∧ A.extractAccumulatedBatches.2.getAccumulatedItemsCount k = 0 :=
  ⟨rfl, rfl, rfl, rfl, rfl, rfl⟩

/-- C4: after any sequence of successful pushes from a fresh accumulator,
`totalAccumulatedItemsCount` equals the sum of `getAccumulatedItemsCount`
over the active keys, and one further successful push increments both the
pushed key's count and the global count by exactly one. -/
theorem accounting_consistency {α : Type} (b : Nat) (ops : List (α × String))
    (i : α) (k : String) :
    (pushAll (emptyAcc α b) ops).totalAccumulatedItemsCount
        = ((pushAll (emptyAcc α b) ops).activeKeys.map
            (fun k2 => (pushAll (emptyAcc α b) ops).getAccumulatedItemsCount k2)).sum
    ∧ ((pushAll (emptyAcc α b) ops).push i k).getAccumulatedItemsCount k
        = (pushAll (emptyAcc α b) ops).getAccumulatedItemsCount k + 1
    ∧ ((pushAll (emptyAcc α b) ops).push i k).totalAccumulatedItemsCount
        = (pushAll (emptyAcc α b) ops).totalAccumulatedItemsCount + 1 := by
  have hg : GoodState (pushAll (emptyAcc α b) ops) :=
    goodState_pushAll (emptyAcc α b) ops (goodState_empty b)
  exact ⟨hg.1.trans (sum_over_keys _ hg.2).symm,
    count_push_self _ i k, rfl⟩

/-- C5: construction succeeds iff the `batchSize` input is a positive integer
(a natural number ≥ 1); every other input — zero, negative, fractional or
non-numeric — makes construction fail with `InvalidArgument`, so no instance
is created. -/
theorem construction_validation (α : Type) (v : JSValue) :
    ((∃ A, construct α v = Except.ok A)
        ↔ ∃ n : Nat, 1 ≤ n ∧ v = JSValue.num (n : Rat))
    ∧ ((∃ A, construct α v = Except.ok A)
        ∨ construct α v = Except.error ErrorKind.invalidArgument) := by
  constructor
  · constructor
    · rintro ⟨A, hA⟩
      cases v with
      | num q =>
        rw [construct] at hA
        by_cases hc : q.den = 1 ∧ 1 ≤ q
        · refine ⟨q.num.toNat, ?_, ?_⟩
          · have h0 : 0 < q.num := Rat.num_pos.mpr (lt_of_lt_of_le one_pos hc.2)
            omega
          · have hq : (q.num : Rat) = q := Rat.coe_int_num_of_den_eq_one hc.1
            have h0 : 0 < q.num := Rat.num_pos.mpr (lt_of_lt_of_le one_pos hc.2)
            have : ((q.num.toNat : Int) : Rat) = (q.num : Rat) := by
              rw [Int.toNat_of_nonneg (le_of_lt h0)]
            rw [JSValue.num.injEq, ← hq, ← this]
            norm_cast
        · rw [if_neg hc] at hA
          exact absurd hA (by simp)
      | str s => exact absurd hA (by simp [construct])
      | boolean bb => exact absurd hA (by simp [construct])
      | jsNull => exact absurd hA (by simp [construct])
      | jsUndefined => exact absurd hA (by simp [construct])
      | object => exact absurd hA (by simp [construct])
    · rintro ⟨n, hn, hv⟩
      subst hv
      have hden : ((n : Rat)).den = 1 := Rat.den_natCast n
      have hge : (1 : Rat) ≤ (n : Rat) := by exact_mod_cast hn
      exact ⟨emptyAcc α ((n : Rat)).num.toNat, by simp [construct, hden, hge]⟩
  · cases v with
    | num q =>
      by_cases hc : q.den = 1 ∧ 1 ≤ q
      · exact Or.inl ⟨emptyAcc α q.num.toNat, by simp [construct, hc.1, hc.2]⟩
      · exact Or.inr (by rw [construct, if_neg hc])
    | str s => exact Or.inr rfl
    | boolean bb => exact Or.inr rfl
    | jsNull => exact Or.inr rfl
    | jsUndefined => exact Or.inr rfl
    | object => exact Or.inr rfl

/-- C6: `push` fails with `InvalidArgument` exactly when the key is not a
non-empty string, and whenever the call does not succeed the accumulator
state is completely unchanged (no entry, batch or counter is touched). -/
theorem push_key_validation {α : Type} (A : KeyedBatchedAccumulator α)
    (item : α) (key : JSValue) :
    ((A.pushChecked item key).1 = Except.error ErrorKind.invalidArgument
        ↔ ¬∃ s : String, key = JSValue.str s ∧ s ≠ "")
    ∧ ((A.pushChecked item key).2 = A
        ∨ (A.pushChecked item key).1 = Except.ok ()) := by
  cases key with
  | str s =>
    by_cases hs : s = "" <;>
      simp [KeyedBatchedAccumulator.pushChecked, hs]
  | num q => simp [KeyedBatchedAccumulator.pushChecked]
  | boolean bb => simp [KeyedBatchedAccumulator.pushChecked]
  | jsNull => simp [KeyedBatchedAccumulator.pushChecked]
  | jsUndefined => simp [KeyedBatchedAccumulator.pushChecked]
  | object => simp [KeyedBatchedAccumulator.pushChecked]

/-- C7 (value-level part only): extracting from an empty accumulator returns
the empty map together with an accumulator that is still empty, so repeated
extraction keeps returning the empty map and never fails. Reference
freshness of the returned maps is a memory-identity property outside this
embedding. -/
theorem extract_empty_value {α : Type} (b : Nat) :
    (emptyAcc α b).extractAccumulatedBatches = ([], emptyAcc α b) := rfl

/-- C8: `isActiveKey` and `getAccumulatedItemsCount` are total and, for any
key with no current entry (never pushed, already extracted, or the empty
string), return `false` and `0` respectively. -/
theorem unknown_key_total {α : Type} (A : KeyedBatchedAccumulator α)
    (key : String) (h : getEntry A.keyToAccumulator key = none) :
    A.isActiveKey key = false ∧ A.getAccumulatedItemsCount key = 0 := by
  rw [KeyedBatchedAccumulator.isActiveKey,
    KeyedBatchedAccumulator.getAccumulatedItemsCount, h]
  exact ⟨rfl, rfl⟩

/-- Witness for C8: the unknown-key theorem applied to an accumulator holding
one key, queried at the empty string. -/
theorem unknown_key_total_witness :
    getEntry (pushAll (emptyAcc Nat 4) [(9, "x")]).keyToAccumulator "" = none
    ∧ (pushAll (emptyAcc Nat 4) [(9, "x")]).isActiveKey "" = false
    ∧ (pushAll (emptyAcc Nat 4) [(9, "x")]).getAccumulatedItemsCount "" = 0 :=
  ⟨by decide, unknown_key_total (pushAll (emptyAcc Nat 4) [(9, "x")]) "" (by decide)⟩

/-- C9: with batch size 3, pushing (A,x), (B,x), (C,y), (D,x) and extracting
yields exactly the map sending x to the single full batch [A, B, D] and y to
the single partial batch [C]. -/
theorem scenario_batches :
    (pushAll (emptyAcc Ev 3)
        [(Ev.A, "x"), (Ev.B, "x"), (Ev.C, "y"), (Ev.D, "x")]).extractAccumulatedBatches.1
      = [("x", [[Ev.A, Ev.B, Ev.D]]), ("y", [[Ev.C]])] := by
  decide

/-- C10: keys do not interfere — two push sequences whose pushes under key
`k` agree (same items, same relative order) give identical extracted batches,
item count and activity status for `k`, whatever is pushed under other
keys. -/
theorem key_noninterference {α : Type} (b : Nat) (ops1 ops2 : List (α × String))
    (k : String)
    (h : ops1.filter (fun op => op.2 == k) = ops2.filter (fun op => op.2 == k)) :
    extractedFor (pushAll (emptyAcc α b) ops1) k
        = extractedFor (pushAll (emptyAcc α b) ops2) k
    ∧ (pushAll (emptyAcc α b) ops1).getAccumulatedItemsCount k
        = (pushAll (emptyAcc α b) ops2).getAccumulatedItemsCount k
    ∧ (pushAll (emptyAcc α b) ops1).isActiveKey k
        = (pushAll (emptyAcc α b) ops2).isActiveKey k := by
  have hitems : keyItems k ops1 = keyItems k ops2 := by
    rw [keyItems, keyItems, h]
  refine ⟨?_, ?_, ?_⟩
  · rw [extractedFor_eq_batchesFor, extractedFor_eq_batchesFor,
      batchesFor_pushAll_empty, batchesFor_pushAll_empty, hitems]
  · rw [count_pushAll_empty, count_pushAll_empty, hitems]
  · rw [isActiveKey_pushAll_empty, isActiveKey_pushAll_empty, hitems]

/-- Witness for C10: two sequences that agree on key x but differ on other
keys produce the same observations for x. -/
theorem key_noninterference_witness :
    [((1:Nat), "x"), (2, "y")].filter (fun op => op.2 == "x")
        = [((1:Nat), "x"), (3, "z"), (4, "z")].filter (fun op => op.2 == "x")
    ∧ (extractedFor (pushAll (emptyAcc Nat 2) [(1, "x"), (2, "y")]) "x"
          = extractedFor (pushAll (emptyAcc Nat 2) [(1, "x"), (3, "z"), (4, "z")]) "x"
      ∧ (pushAll (emptyAcc Nat 2) [(1, "x"), (2, "y")]).getAccumulatedItemsCount "x"
          = (pushAll (emptyAcc Nat 2)
              [(1, "x"), (3, "z"), (4, "z")]).getAccumulatedItemsCount "x"
      ∧ (pushAll (emptyAcc Nat 2) [(1, "x"), (2, "y")]).isActiveKey "x"
          = (pushAll (emptyAcc Nat 2) [(1, "x"), (3, "z"), (4, "z")]).isActiveKey "x") :=
  ⟨by decide,
    key_noninterference 2 [(1, "x"), (2, "y")] [(1, "x"), (3, "z"), (4, "z")] "x"
      (by decide)⟩

end KeyedBatching
